import Mathlib

/-!
Shallow embedding of the data-reconciliation pipeline of
`src/app.py` (Alanizer life stock): the functions `process_status_data`,
`process_rastreabilidade_data`, `process_estoque_data` and `process_data`.

Tables are lists of records; pandas cells read with `dtype=str` are
`Option String` (`none` models NaN).  Numeric coercion
(`pd.to_numeric(..., errors='coerce')`) is modelled by a decimal-literal
parser into `ℚ`; string comparison and sorting use lexicographic order on
Unicode code points, which is exactly how Python and pandas compare strings.
-/

/-- Lexicographic order on the character lists, comparing code points.
Models Python string comparison used by `sorted` and pandas sorts. -/
def charListLe : List Char → List Char → Bool
  | [], _ => true
  | _ :: _, [] => false
  | a :: as, b :: bs => if a = b then charListLe as bs else decide (a < b)

/-- String `≤` by code-point lexicographic order (Python string order). -/
def strLe (s t : String) : Bool := charListLe s.data t.data

/-- Boolean test that `s` starts with the literal `p`; models Python's
case-sensitive `str.startswith` / pandas `.str.startswith`. -/
def strStartsWith (s p : String) : Bool := p.data.isPrefixOf s.data

/-- Sort a list of strings ascending, as Python `sorted` does for strings. -/
def sortStr (l : List String) : List String :=
  List.insertionSort (fun a b => strLe a b = true) l

/-- First-occurrence deduplication, keeping `seen` as the accumulator; models
pandas `drop_duplicates` / `Series.unique`, which keep the first occurrence. -/
def dedupFirstAux {α : Type} [DecidableEq α] (seen : List α) : List α → List α
  | [] => []
  | x :: xs =>
      if x ∈ seen then dedupFirstAux seen xs else x :: dedupFirstAux (x :: seen) xs

/-- First-occurrence deduplication of a list. -/
def dedupF {α : Type} [DecidableEq α] (l : List α) : List α := dedupFirstAux [] l

/-- Parse an unsigned decimal digit string. -/
def parseDigits (cs : List Char) : Option ℕ :=
  if cs ≠ [] ∧ cs.all (·.isDigit) then
    some (cs.foldl (fun n c => 10 * n + (c.toNat - 48)) 0)
  else none

/-- Parse an optional-sign decimal literal into an exact rational.  Models
`pd.to_numeric(..., errors='coerce')` on the cell contents this pipeline
meets (plain integer or decimal-point literals); anything else coerces to
`none`, the model of NaN. -/
def parseNum (s : String) : Option ℚ :=
  let neg : Bool := strStartsWith s "-"
  let t : String := if neg then ⟨s.data.drop 1⟩ else s
  match t.data.splitOn '.' with
  | [a] => (parseDigits a).map fun n => if neg then -(n : ℚ) else (n : ℚ)
  | [a, b] =>
      match parseDigits a, parseDigits b with
      | some n, some m =>
          let v : ℚ := (n : ℚ) + (m : ℚ) / ((10 : ℚ) ^ b.length)
          some (if neg then -v else v)
      | _, _ => none
  | _ => none

/-- Numeric coercion of a string-typed cell: NaN stays NaN, a string is
parsed, an unparseable string becomes NaN (`errors='coerce'`). -/
def toNumeric (c : Option String) : Option ℚ := c.bind parseNum

/-- Boolean version of the pandas comparison `x > 0` on a float column:
NaN compares false. -/
def qtyPos : Option ℚ → Bool
  | none => false
  | some q => decide (0 < q)

/-- Row of the status table after header canonicalization.  The three
required columns `Item`, `Descrição`, `Quantidade Não Alocada` are the named
fields; `extra` carries any further columns of the raw file. -/
structure StatusRow where
  item : String
  descricao : String
  qtdNA : Option String
  extra : List (String × Option String)
deriving DecidableEq

/-- Status record after `process_status_data`: narrowed to the three
required columns, with the quantity coerced to numeric. -/
structure StatusRec where
  item : String
  descricao : String
  qtd : Option ℚ
deriving DecidableEq

/-- Embedding of `process_status_data` (src/app.py lines 100-117): select the
three required columns, coerce `Quantidade Não Alocada` to numeric, keep the
rows where it is > 0. -/
def process_status_data (t : List StatusRow) : List StatusRec :=
  ((t.map fun r => StatusRec.mk r.item r.descricao (toNumeric r.qtdNA)).filter
    fun r => qtyPos r.qtd)

/-- Traceability row in the single-`Endereço` schema. -/
structure TraceRowE where
  item : String
  endereco : Option String
deriving DecidableEq

/-- Traceability row in the `Endereço Origem` / `Endereço Destino` schema. -/
structure TraceRowOD where
  item : String
  origem : Option String
  destino : Option String
deriving DecidableEq

/-- The three column layouts `process_rastreabilidade_data` distinguishes:
a canonical `Endereço` column, else both `Endereço Origem` and
`Endereço Destino`, else no usable address column. -/
inductive TraceTable where
  | comEndereco (rows : List TraceRowE)
  | origemDestino (rows : List TraceRowOD)
  | semEndereco
deriving DecidableEq

/-- Embedding of the `pd.melt` unpivot (src/app.py lines 126-131): the
origin value of each row, then the destination value of each row, each
paired with the row's `Item`. -/
def melt (rows : List TraceRowOD) : List TraceRowE :=
  (rows.map fun r => TraceRowE.mk r.item r.origem) ++
    (rows.map fun r => TraceRowE.mk r.item r.destino)

/-- Drop null addresses, then keep addresses starting with `A0`
(src/app.py lines 137-138: `dropna` then `.str.startswith('A0', na=False)`). -/
def filterA0 (rows : List TraceRowE) : List (String × String) :=
  ((rows.filterMap fun r => r.endereco.map fun e => (r.item, e)).filter
    fun p => strStartsWith p.2 "A0")

/-- Sort the (Item, Endereço) pairs by address, group by `Item` (group keys
sorted, as pandas `groupby` does) and collect each group's addresses in
order (src/app.py lines 142-147). -/
def groupAddrs (pairs : List (String × String)) : List (String × List String) :=
  let ps := List.insertionSort (fun a b => strLe a.2 b.2 = true) pairs
  (sortStr (dedupF (ps.map (·.1)))).map fun i =>
    (i, (ps.filter fun p => p.1 = i).map (·.2))

/-- Embedding of `process_rastreabilidade_data` (src/app.py lines 120-149):
pick the address column or unpivot origin/destination, fail when neither
layout is present, then filter to non-null `A0` addresses, deduplicate by
(Item, Endereço), and group the addresses per item. -/
def process_rastreabilidade_data : TraceTable → Option (List (String × List String))
  | TraceTable.comEndereco rows => some (groupAddrs (dedupF (filterA0 rows)))
  | TraceTable.origemDestino rows => some (groupAddrs (dedupF (filterA0 (melt rows))))
  | TraceTable.semEndereco => none

/-- Row of the stock table after header canonicalization (`Qtd Atual`
already renamed to `Qtd em Estoque`). -/
structure EstoqueRow where
  item : String
  endereco : Option String
  qtd : Option String
deriving DecidableEq

/-- The stock mask (src/app.py lines 163-166): item contained in the
filtered status item universe and address starting with `A0` (NaN-safe). -/
def estoqueMask (itens : List String) (r : EstoqueRow) : Bool :=
  itens.contains r.item &&
    (match r.endereco with
     | some e => strStartsWith e "A0"
     | none => false)

/-- Stock rows surviving the mask, with the quantity coerced to numeric and
NaN filled with 0 (src/app.py lines 167-173). -/
def estoqueCoerced (est : List EstoqueRow) (itens : List String) :
    List (String × String × ℚ) :=
  ((est.filter (estoqueMask itens)).filterMap fun r =>
    r.endereco.map fun e => (r.item, e, (toNumeric r.qtd).getD 0))

/-- Boolean key match for a (Item, Endereço, qty) row. -/
def keyIs (i a : String) (r : String × String × ℚ) : Bool :=
  r.1 = i && r.2.1 = a

/-- Lexicographic `≤` on (Item, Endereço) keys, as pandas sorts group keys. -/
def pairLe (a b : String × String) : Bool :=
  if a.1 = b.1 then strLe a.2 b.2 else strLe a.1 b.1

/-- Embedding of `groupby(['Item', 'Endereço']).sum()` (src/app.py lines
176-180): one row per distinct (Item, Endereço) key, keys sorted, carrying
the sum of the quantities of the matching input rows. -/
def groupSum (rows : List (String × String × ℚ)) : List (String × String × ℚ) :=
  (List.insertionSort (fun a b => pairLe a b = true)
      (dedupF (rows.map fun r => (r.1, r.2.1)))).map
    fun k => (k.1, k.2, ((rows.filter (keyIs k.1 k.2)).map (·.2.2)).sum)

/-- Embedding of `groupby('Item')['Endereço'].apply(list)` (src/app.py
lines 183-189): group keys sorted, addresses of each item in table order. -/
def groupItems (g : List (String × String × ℚ)) : List (String × List String) :=
  (sortStr (dedupF (g.map (·.1)))).map fun i =>
    (i, (g.filter fun r => r.1 = i).map (·.2.1))

/-- Embedding of `process_estoque_data` (src/app.py lines 152-191): the
summed per-(Item, Endereço) stock table and the per-item address lists. -/
def process_estoque_data (est : List EstoqueRow) (itens : List String) :
    List (String × String × ℚ) × List (String × List String) :=
  let g := groupSum (estoqueCoerced est itens)
  (g, groupItems g)

/-- Final report row: Item, Descrição, Quantidade Não Alocada, Endereço,
Rastreabilidade / Qnt. Atual. -/
structure ReportRow where
  item : String
  descricao : String
  qtdNaoAlocada : Option ℚ
  endereco : String
  statusQtd : String
deriving DecidableEq

/-- The distinct items of the filtered status table
(`df_status_processed['Item'].unique()`, src/app.py line 232). -/
def itensOf (statusP : List StatusRec) : List String :=
  dedupF (statusP.map (·.item))

/-- Left merge on `Item` against a grouped table with unique item keys,
with the missing-match fix-up to an empty list (src/app.py lines 242-247). -/
def lookupList (tbl : List (String × List String)) (i : String) : List String :=
  match tbl.find? fun e => e.1 = i with
  | some e => e.2
  | none => []

/-- Left merge on (Item, Endereço) against the summed stock table, whose
keys are unique (src/app.py lines 268-273). -/
def lookupQty (g : List (String × String × ℚ)) (i a : String) : Option ℚ :=
  (g.find? (keyIs i a)).map (·.2.2)

/-- Python `sorted(set(t + s))` combining the two address lists of a row
(src/app.py lines 250-253). -/
def unionSorted (t s : List String) : List String :=
  sortStr ((t ++ s).dedup)

/-- Pandas `explode` on a list-valued cell: an empty list yields a single
NaN cell, otherwise one cell per element (src/app.py line 262). -/
def explodeCell (addrs : List String) : List (Option String) :=
  if addrs = [] then [none] else addrs.map some

/-- Per-row quantity display (src/app.py lines 276-281): the stringified
integer part when the attached quantity is positive, else `VIDA`. -/
def quantityLabel (q : ℚ) : String :=
  if 0 < q then toString q.floor else "VIDA"

/-- Assemble one report row from a status record, an address, and the
summed stock table (src/app.py lines 268-293). -/
def mkReportRow (det : List (String × String × ℚ)) (r : StatusRec) (a : String) :
    ReportRow :=
  ReportRow.mk r.item r.descricao r.qtd a
    (quantityLabel ((lookupQty det r.item a).getD 0))

/-- The merge / union / explode / dropna / final-merge block of
`process_data` (src/app.py lines 242-293): per status row, look up both
address lists, union and sort them, explode into one row per address,
drop the NaN rows the explode of an empty list produced, and attach the
quantity label. -/
def reportRows (statusP : List StatusRec) (trG estG : List (String × List String))
    (det : List (String × String × ℚ)) : List ReportRow :=
  ((statusP.flatMap fun r =>
      (explodeCell (unionSorted (lookupList trG r.item) (lookupList estG r.item))).map
        fun oa => (r, oa)).filterMap
    fun p => p.2.map fun a => (p.1, a)).map
    fun p => mkReportRow det p.1 p.2

/-- Embedding of `process_data` (src/app.py lines 193-306): run the three
stage functions, abort with `none` when a stage fails, then build the final
report. -/
def process_data (status : List StatusRow) (tr : TraceTable)
    (est : List EstoqueRow) : Option (List ReportRow) :=
  let statusP := process_status_data status
  match process_rastreabilidade_data tr with
  | none => none
  | some trG =>
      let p := process_estoque_data est (itensOf statusP)
      some (reportRows statusP trG p.2 p.1)

/-- One-row status table used by the concrete witnesses. -/
def exStatus1 : List StatusRow := [StatusRow.mk "I1" "D" (some "1") []]

/-- One-row traceability table used by the concrete witnesses. -/
def exTrace1 : TraceTable :=
  TraceTable.comEndereco [TraceRowE.mk "I1" (some "A0001")]

/-- The single report row `process_data exStatus1 exTrace1 []` produces. -/
def exRow1 : ReportRow :=
  ReportRow.mk "I1" "D" (toNumeric (some "1")) "A0001" "VIDA"

/-- Stock row used by the C6 witness. -/
def exEstA : EstoqueRow := EstoqueRow.mk "I1" (some "A0001") (some "2")

/-- Second stock row used by the C6 witness. -/
def exEstB : EstoqueRow := EstoqueRow.mk "I1" (some "A0001") (some "3")

/-! Order-theoretic facts about the code-point lexicographic order. -/

theorem charListLe_total (as bs : List Char) :
    charListLe as bs = true ∨ charListLe bs as = true := by
  induction as generalizing bs with
  | nil => left; rfl
  | cons a as ih =>
      cases bs with
      | nil => right; rfl
      | cons b bs =>
          by_cases hab : a = b
          · subst hab
            simpa [charListLe] using ih bs
          · rcases lt_or_gt_of_ne hab with h | h
            · left; simp [charListLe, hab, h]
            · right
              have hba : b ≠ a := fun e => hab e.symm
              simp [charListLe, hba, h]

theorem charListLe_trans (as bs cs : List Char) (h₁ : charListLe as bs = true)
    (h₂ : charListLe bs cs = true) : charListLe as cs = true := by
  induction as generalizing bs cs with
  | nil => rfl
  | cons a as ih =>
      cases bs with
      | nil => simp [charListLe] at h₁
      | cons b bs =>
          cases cs with
          | nil => simp [charListLe] at h₂
          | cons c cs =>
              by_cases hab : a = b
              · subst hab
                by_cases hac : a = c
                · subst hac
                  simp only [charListLe, if_pos rfl] at h₁ h₂ ⊢
                  exact ih bs cs h₁ h₂
                · simp only [charListLe, if_pos rfl] at h₁
                  simp only [charListLe, if_neg hac] at h₂ ⊢
                  exact h₂
              · simp only [charListLe, if_neg hab, decide_eq_true_eq] at h₁
                by_cases hbc : b = c
                · subst hbc
                  simp [charListLe, hab, h₁]
                · simp only [charListLe, if_neg hbc, decide_eq_true_eq] at h₂
                  have hlt : a < c := lt_trans h₁ h₂
                  have hac : a ≠ c := ne_of_lt hlt
                  simp [charListLe, hac, hlt]

theorem charListLe_antisymm (as bs : List Char) (h₁ : charListLe as bs = true)
    (h₂ : charListLe bs as = true) : as = bs := by
  induction as generalizing bs with
  | nil =>
      cases bs with
      | nil => rfl
      | cons b bs => simp [charListLe] at h₂
  | cons a as ih =>
      cases bs with
      | nil => simp [charListLe] at h₁
      | cons b bs =>
          by_cases hab : a = b
          · subst hab
            simp only [charListLe, if_pos rfl] at h₁ h₂
            exact congrArg (a :: ·) (ih bs h₁ h₂)
          · have hba : b ≠ a := fun e => hab e.symm
            simp only [charListLe, if_neg hab, decide_eq_true_eq] at h₁
            simp only [charListLe, if_neg hba, decide_eq_true_eq] at h₂
            exact absurd h₂ (not_lt_of_gt h₁)

theorem strLe_total (s t : String) : strLe s t = true ∨ strLe t s = true :=
  charListLe_total s.data t.data

theorem strLe_trans (s t u : String) (h₁ : strLe s t = true)
    (h₂ : strLe t u = true) : strLe s u = true :=
  charListLe_trans s.data t.data u.data h₁ h₂

theorem strLe_antisymm (s t : String) (h₁ : strLe s t = true)
    (h₂ : strLe t s = true) : s = t := by
  cases s with
  | mk sd =>
      cases t with
      | mk td => exact congrArg String.mk (charListLe_antisymm sd td h₁ h₂)

theorem sortStr_sorted (l : List String) :
    List.Sorted (fun a b => strLe a b = true) (sortStr l) := by
  haveI : IsTotal String (fun a b => strLe a b = true) :=
    ⟨fun a b => strLe_total a b⟩
  haveI : IsTrans String (fun a b => strLe a b = true) :=
    ⟨fun a b c => strLe_trans a b c⟩
  exact List.sorted_insertionSort _ l

theorem sortStr_perm (l : List String) : (sortStr l).Perm l :=
  List.perm_insertionSort _ l

theorem sortStr_eq_of_perm {l₁ l₂ : List String} (h : l₁.Perm l₂) :
    sortStr l₁ = sortStr l₂ := by
  haveI : IsAntisymm String (fun a b => strLe a b = true) :=
    ⟨fun a b => strLe_antisymm a b⟩
  exact List.eq_of_perm_of_sorted
    ((sortStr_perm l₁).trans (h.trans (sortStr_perm l₂).symm))
    (sortStr_sorted l₁) (sortStr_sorted l₂)

/-! Facts about first-occurrence deduplication. -/

theorem mem_dedupFirstAux {α : Type} [DecidableEq α] (seen : List α)
    (l : List α) (x : α) :
    x ∈ dedupFirstAux seen l ↔ x ∈ l ∧ x ∉ seen := by
  induction l generalizing seen with
  | nil => simp [dedupFirstAux]
  | cons y ys ih =>
      simp only [dedupFirstAux]
      by_cases hy : y ∈ seen
      · rw [if_pos hy, ih]
        constructor
        · rintro ⟨h₁, h₂⟩
          exact ⟨List.mem_cons_of_mem _ h₁, h₂⟩
        · rintro ⟨h₁, h₂⟩
          rcases List.mem_cons.mp h₁ with rfl | h₁
          · exact absurd hy h₂
          · exact ⟨h₁, h₂⟩
      · rw [if_neg hy]
        constructor
        · intro h
          rcases List.mem_cons.mp h with rfl | h
          · exact ⟨List.mem_cons_self _ _, hy⟩
          · obtain ⟨h₁, h₂⟩ := (ih _).mp h
            refine ⟨List.mem_cons_of_mem _ h₁, fun hs => h₂ ?_⟩
            exact List.mem_cons_of_mem _ hs
        · rintro ⟨h₁, h₂⟩
          rcases List.mem_cons.mp h₁ with rfl | h₁
          · exact List.mem_cons_self _ _
          · by_cases hxy : x = y
            · exact hxy ▸ List.mem_cons_self _ _
            · refine List.mem_cons_of_mem _ ((ih _).mpr ⟨h₁, fun hs => ?_⟩)
              rcases List.mem_cons.mp hs with h | h
              · exact hxy h
              · exact h₂ h

theorem mem_dedupF {α : Type} [DecidableEq α] (l : List α) (x : α) :
    x ∈ dedupF l ↔ x ∈ l := by
  simp [dedupF, mem_dedupFirstAux]

theorem nodup_dedupFirstAux {α : Type} [DecidableEq α] (seen : List α)
    (l : List α) : (dedupFirstAux seen l).Nodup := by
  induction l generalizing seen with
  | nil => exact List.nodup_nil
  | cons y ys ih =>
      simp only [dedupFirstAux]
      by_cases hy : y ∈ seen
      · rw [if_pos hy]
        exact ih seen
      · rw [if_neg hy]
        refine List.Nodup.cons ?_ (ih (y :: seen))
        intro hmem
        exact ((mem_dedupFirstAux _ _ _).mp hmem).2 (List.mem_cons_self _ _)

theorem nodup_dedupF {α : Type} [DecidableEq α] (l : List α) :
    (dedupF l).Nodup := nodup_dedupFirstAux [] l

/-! Facts about the sorted set union of two address lists. -/

theorem unionSorted_comm (t s : List String) :
    unionSorted t s = unionSorted s t :=
  sortStr_eq_of_perm (@List.perm_append_comm String t s).dedup

theorem mem_unionSorted (t s : List String) (a : String) :
    a ∈ unionSorted t s ↔ a ∈ t ∨ a ∈ s := by
  rw [unionSorted, (sortStr_perm _).mem_iff, List.mem_dedup, List.mem_append]

theorem nodup_unionSorted (t s : List String) : (unionSorted t s).Nodup :=
  ((sortStr_perm _).nodup_iff).mpr (List.nodup_dedup _)

theorem sorted_unionSorted (t s : List String) :
    List.Sorted (fun a b => strLe a b = true) (unionSorted t s) :=
  sortStr_sorted _

theorem qtyPos_none : qtyPos none = false := rfl

theorem qtyPos_some (q : ℚ) : qtyPos (some q) = decide (0 < q) := rfl

/-- C3: for every status table with the three canonical columns,
`process_status_data` returns exactly the rows whose
`Quantidade Não Alocada`, after numeric coercion, is strictly positive —
null, zero and unparseable quantities are always excluded — narrowed to the
three required columns. -/
theorem status_filter_exact (t : List StatusRow) :
    process_status_data t = t.filterMap fun r =>
      match toNumeric r.qtdNA with
      | some q =>
          if 0 < q then some (StatusRec.mk r.item r.descricao (some q)) else none
      | none => none := by
  induction t with
  | nil => rfl
  | cons r rs ih =>
      simp only [process_status_data] at ih ⊢
      simp only [List.map_cons, List.filter_cons, List.filterMap_cons]
      cases h : toNumeric r.qtdNA with
      | none => simp [h, qtyPos_none, ih]
      | some q =>
          by_cases hq : 0 < q
          · simp [h, qtyPos_some, hq, ih]
          · simp [h, qtyPos_some, hq, ih]

/-- C4: on a traceability table with origin and destination columns but no
canonical address column, the unpivot emits exactly twice the input row
count before null-dropping and A0 filtering, each input row contributing
the two rows (Item, OriginValue) and (Item, DestinationValue). -/
theorem melt_double (rows : List TraceRowOD) :
    process_rastreabilidade_data (TraceTable.origemDestino rows) =
      some (groupAddrs (dedupF (filterA0 (melt rows)))) ∧
    (melt rows).length = 2 * rows.length ∧
    ∀ r ∈ rows, TraceRowE.mk r.item r.origem ∈ melt rows ∧
      TraceRowE.mk r.item r.destino ∈ melt rows := by
  refine ⟨rfl, ?_, fun r hr => ?_⟩
  · simp [melt, two_mul]
  · constructor
    · exact List.mem_append_left _ (List.mem_map_of_mem _ hr)
    · exact List.mem_append_right _ (List.mem_map_of_mem _ hr)

/-- Witness for C4 at a one-row table. -/
theorem melt_double_witness :
    (melt [TraceRowOD.mk "I" (some "A0001") (some "A0002")]).length = 2 ∧
      TraceRowE.mk "I" (some "A0001") ∈
        melt [TraceRowOD.mk "I" (some "A0001") (some "A0002")] :=
  ⟨(melt_double [TraceRowOD.mk "I" (some "A0001") (some "A0002")]).2.1,
    ((melt_double [TraceRowOD.mk "I" (some "A0001") (some "A0002")]).2.2
      (TraceRowOD.mk "I" (some "A0001") (some "A0002")) (by decide)).1⟩

/-- C7: the per-item address union used by `process_data` is commutative
and idempotent — the union contains an address exactly when one of the two
source lists does, an address occurring in both lists (or repeatedly)
appears exactly once — and the result is sorted lexicographically. -/
theorem union_comm_idem_sorted (t s : List String) :
    unionSorted t s = unionSorted s t ∧
    (∀ a, a ∈ unionSorted t s ↔ a ∈ t ∨ a ∈ s) ∧
    (∀ a, a ∈ t ∨ a ∈ s → (unionSorted t s).count a = 1) ∧
    List.Sorted (fun a b => strLe a b = true) (unionSorted t s) := by
  refine ⟨unionSorted_comm t s, fun a => mem_unionSorted t s a,
    fun a ha => ?_, sorted_unionSorted t s⟩
  exact List.count_eq_one_of_mem (nodup_unionSorted t s)
    ((mem_unionSorted t s a).mpr ha)

/-- Witness for C7: an address present in both source lists appears once. -/
theorem union_comm_idem_sorted_witness :
    unionSorted ["A0002", "A0001"] ["A0001"] =
        unionSorted ["A0001"] ["A0002", "A0001"] ∧
      (unionSorted ["A0002", "A0001"] ["A0001"]).count "A0001" = 1 :=
  ⟨(union_comm_idem_sorted ["A0002", "A0001"] ["A0001"]).1,
    (union_comm_idem_sorted ["A0002", "A0001"] ["A0001"]).2.2.1 "A0001"
      (Or.inl (by decide))⟩

/-- C9: `process_rastreabilidade_data` fails (returns nothing) exactly when
the table has neither a canonical address column nor both origin and
destination columns, and `process_data` then aborts the run with no
report. -/
theorem rastreabilidade_fail_iff (tt : TraceTable) :
    (process_rastreabilidade_data tt = none ↔ tt = TraceTable.semEndereco) ∧
    ∀ (status : List StatusRow) (est : List EstoqueRow),
      process_data status TraceTable.semEndereco est = none := by
  refine ⟨?_, fun status est => rfl⟩
  cases tt <;> simp [process_rastreabilidade_data]

/-- Witness for C9 at the no-address-column table. -/
theorem rastreabilidade_fail_iff_witness :
    process_rastreabilidade_data TraceTable.semEndereco = none :=
  (rastreabilidade_fail_iff TraceTable.semEndereco).1.mpr rfl

/-! Characterization of the explode / dropna / final-merge block. -/

theorem explodeDrop_map (det : List (String × String × ℚ)) (r : StatusRec)
    (u : List String) :
    ((((explodeCell u).map fun oa => (r, oa)).filterMap
        fun p => p.2.map fun a => (p.1, a)).map
      fun p => mkReportRow det p.1 p.2) = u.map (mkReportRow det r) := by
  by_cases hu : u = []
  · simp [explodeCell, hu]
  · rw [explodeCell, if_neg hu]
    clear hu
    induction u with
    | nil => rfl
    | cons a as ih => simpa using ih

theorem reportRows_eq (sp : List StatusRec) (trG estG : List (String × List String))
    (det : List (String × String × ℚ)) :
    reportRows sp trG estG det = sp.flatMap fun r =>
      (unionSorted (lookupList trG r.item) (lookupList estG r.item)).map
        (mkReportRow det r) := by
  induction sp with
  | nil => rfl
  | cons r rs ih =>
      simp only [reportRows, List.flatMap_cons, List.filterMap_append,
        List.map_append] at ih ⊢
      exact congrArg₂ (· ++ ·) (explodeDrop_map det r _) ih

theorem mem_reportRows {sp : List StatusRec} {trG estG : List (String × List String)}
    {det : List (String × String × ℚ)} {row : ReportRow} :
    row ∈ reportRows sp trG estG det ↔
      ∃ r ∈ sp,
        ∃ a ∈ unionSorted (lookupList trG r.item) (lookupList estG r.item),
          row = mkReportRow det r a := by
  rw [reportRows_eq]
  simp only [List.mem_flatMap, List.mem_map]
  constructor
  · rintro ⟨r, hr, a, ha, rfl⟩
    exact ⟨r, hr, a, ha, rfl⟩
  · rintro ⟨r, hr, a, ha, rfl⟩
    exact ⟨r, hr, a, ha, rfl⟩

/-! Membership facts used by the A0 prefix invariant. -/

theorem filterA0_eq (rows : List TraceRowE) :
    filterA0 rows = rows.filterMap fun r =>
      match r.endereco with
      | some e => if strStartsWith e "A0" then some (r.item, e) else none
      | none => none := by
  induction rows with
  | nil => rfl
  | cons r rs ih =>
      simp only [filterA0] at ih ⊢
      simp only [List.filterMap_cons]
      cases h : r.endereco with
      | none => simp [h, ih]
      | some e =>
          by_cases he : strStartsWith e "A0" = true
          · simp [h, he, ih]
          · simp [h, he, ih]

theorem mem_filterA0_startsWith {rows : List TraceRowE} {p : String × String}
    (hp : p ∈ filterA0 rows) : strStartsWith p.2 "A0" = true := by
  simp only [filterA0] at hp
  have h := List.of_mem_filter hp
  simpa using h

theorem lookupList_subset {tbl : List (String × List String)} {i a : String}
    (ha : a ∈ lookupList tbl i) : ∃ e ∈ tbl, a ∈ e.2 := by
  unfold lookupList at ha
  cases hf : tbl.find? fun e => e.1 = i with
  | none => rw [hf] at ha; exact absurd ha (List.not_mem_nil a)
  | some e =>
      rw [hf] at ha
      exact ⟨e, List.mem_of_find?_eq_some hf, ha⟩

theorem mem_groupAddrs_addr {pairs : List (String × String)}
    {e : String × List String} (he : e ∈ groupAddrs pairs) {a : String}
    (ha : a ∈ e.2) : ∃ p ∈ pairs, p.2 = a := by
  simp only [groupAddrs, List.mem_map] at he
  obtain ⟨i, _, rfl⟩ := he
  simp only [List.mem_map] at ha
  obtain ⟨p, hp, rfl⟩ := ha
  exact ⟨p, (List.perm_insertionSort _ pairs).subset (List.mem_of_mem_filter hp), rfl⟩

theorem mem_groupItems_addr {g : List (String × String × ℚ)}
    {e : String × List String} (he : e ∈ groupItems g) {a : String}
    (ha : a ∈ e.2) : ∃ r ∈ g, r.2.1 = a := by
  simp only [groupItems, List.mem_map] at he
  obtain ⟨i, _, rfl⟩ := he
  simp only [List.mem_map] at ha
  obtain ⟨r, hr, rfl⟩ := ha
  exact ⟨r, List.mem_of_mem_filter hr, rfl⟩

theorem mem_groupSum_key {l : List (String × String × ℚ)}
    {r : String × String × ℚ} (hr : r ∈ groupSum l) :
    ∃ x ∈ l, x.1 = r.1 ∧ x.2.1 = r.2.1 := by
  simp only [groupSum, List.mem_map] at hr
  obtain ⟨k, hk, rfl⟩ := hr
  have hk' : k ∈ l.map fun r => (r.1, r.2.1) :=
    (mem_dedupF _ _).mp ((List.perm_insertionSort _ _).subset hk)
  simp only [List.mem_map] at hk'
  obtain ⟨x, hx, hxk⟩ := hk'
  exact ⟨x, hx, by rw [← hxk], by rw [← hxk]⟩

theorem mem_estoqueCoerced {est : List EstoqueRow} {itens : List String}
    {x : String × String × ℚ} (hx : x ∈ estoqueCoerced est itens) :
    itens.contains x.1 = true ∧ strStartsWith x.2.1 "A0" = true := by
  simp only [estoqueCoerced, List.mem_filterMap] at hx
  obtain ⟨r, hr, hmap⟩ := hx
  have hmask : estoqueMask itens r = true := List.of_mem_filter hr
  obtain ⟨e, he, hfe⟩ := Option.map_eq_some'.mp hmap
  simp only [estoqueMask, he, Bool.and_eq_true] at hmask
  subst hfe
  exact ⟨hmask.1, hmask.2⟩

theorem filter_mask_eq (itens : List String) (l : List EstoqueRow) :
    l.filter (estoqueMask itens) =
      (l.filter fun r => itens.contains r.item).filter fun r =>
        match r.endereco with
        | some e => strStartsWith e "A0"
        | none => false := by
  rw [List.filter_filter]
  refine List.filter_congr fun r _ => ?_
  unfold estoqueMask
  exact Bool.and_comm _ _

theorem estoqueCoerced_eq (est : List EstoqueRow) (itens : List String) :
    estoqueCoerced est itens =
      (est.filter fun r => itens.contains r.item).filterMap fun r =>
        match r.endereco with
        | some e =>
            if strStartsWith e "A0"
            then some (r.item, e, (toNumeric r.qtd).getD 0) else none
        | none => none := by
  unfold estoqueCoerced
  rw [filter_mask_eq]
  generalize est.filter (fun r => itens.contains r.item) = l
  induction l with
  | nil => rfl
  | cons r rs ih =>
      simp only [List.filter_cons, List.filterMap_cons]
      cases he : r.endereco with
      | none => simp [he, ih]
      | some e =>
          by_cases hA : strStartsWith e "A0" = true
          · simp [he, hA, ih]
          · simp [he, hA, ih]

theorem trace_allA0 {tt : TraceTable} {trG : List (String × List String)}
    (h : process_rastreabilidade_data tt = some trG) {e : String × List String}
    (he : e ∈ trG) {a : String} (ha : a ∈ e.2) :
    strStartsWith a "A0" = true := by
  cases tt with
  | semEndereco => cases h
  | comEndereco rows =>
      simp only [process_rastreabilidade_data, Option.some_inj] at h
      subst h
      obtain ⟨p, hp, rfl⟩ := mem_groupAddrs_addr he ha
      exact mem_filterA0_startsWith ((mem_dedupF _ _).mp hp)
  | origemDestino rows =>
      simp only [process_rastreabilidade_data, Option.some_inj] at h
      subst h
      obtain ⟨p, hp, rfl⟩ := mem_groupAddrs_addr he ha
      exact mem_filterA0_startsWith ((mem_dedupF _ _).mp hp)

theorem estoque_allA0 {est : List EstoqueRow} {itens : List String}
    {e : String × List String}
    (he : e ∈ groupItems (groupSum (estoqueCoerced est itens))) {a : String}
    (ha : a ∈ e.2) : strStartsWith a "A0" = true := by
  obtain ⟨r, hr, hra⟩ := mem_groupItems_addr he ha
  obtain ⟨x, hx, _, hxa⟩ := mem_groupSum_key hr
  have h := (mem_estoqueCoerced hx).2
  rw [hxa, hra] at h
  exact h

theorem process_data_some {status : List StatusRow} {tr : TraceTable}
    {est : List EstoqueRow} {rep : List ReportRow}
    (h : process_data status tr est = some rep) :
    ∃ trG, process_rastreabilidade_data tr = some trG ∧
      rep = reportRows (process_status_data status) trG
        (groupItems (groupSum (estoqueCoerced est (itensOf (process_status_data status)))))
        (groupSum (estoqueCoerced est (itensOf (process_status_data status)))) := by
  unfold process_data at h
  cases htr : process_rastreabilidade_data tr with
  | none => rw [htr] at h; cases h
  | some trG =>
      rw [htr] at h
      exact ⟨trG, rfl, (Option.some_inj.mp h).symm⟩

/-- C5: address filtering keeps exactly the non-null addresses starting
with the case-sensitive `A0` in the traceability path (part 1: nulls are
dropped, only `A0`-prefixed values kept), is prefix-exact on the sample
values (part 2), and on the stock path a null address never passes the
mask (part 3), the surviving rows are exactly the in-universe rows with a
non-null `A0` address (part 4), so every surviving stock address starts
with `A0` (part 5); consequently every address in a final report row
starts with `A0` (part 6). -/
theorem address_filter_A0 :
    (∀ rows : List TraceRowE, filterA0 rows = rows.filterMap fun r =>
        match r.endereco with
        | some e => if strStartsWith e "A0" then some (r.item, e) else none
        | none => none) ∧
    (strStartsWith "A0123" "A0" = true ∧ strStartsWith "a0123" "A0" = false ∧
      strStartsWith "B0123" "A0" = false) ∧
    (∀ (itens : List String) (i : String) (q : Option String),
      estoqueMask itens (EstoqueRow.mk i none q) = false) ∧
    (∀ (est : List EstoqueRow) (itens : List String),
      estoqueCoerced est itens =
        (est.filter fun r => itens.contains r.item).filterMap fun r =>
          match r.endereco with
          | some e =>
              if strStartsWith e "A0"
              then some (r.item, e, (toNumeric r.qtd).getD 0) else none
          | none => none) ∧
    (∀ (est : List EstoqueRow) (itens : List String),
      ∀ x ∈ estoqueCoerced est itens, strStartsWith x.2.1 "A0" = true) ∧
    ∀ (status : List StatusRow) (tr : TraceTable) (est : List EstoqueRow)
      (rep : List ReportRow), process_data status tr est = some rep →
        ∀ row ∈ rep, strStartsWith row.endereco "A0" = true := by
  refine ⟨filterA0_eq, ⟨by decide, by decide, by decide⟩,
    fun itens i q => by simp [estoqueMask],
    fun est itens => estoqueCoerced_eq est itens,
    fun est itens x hx => (mem_estoqueCoerced hx).2, ?_⟩
  intro status tr est rep h row hrow
  obtain ⟨trG, htr, rfl⟩ := process_data_some h
  obtain ⟨r, _, a, ha, rfl⟩ := mem_reportRows.mp hrow
  rcases (mem_unionSorted _ _ a).mp ha with hta | hsa
  · obtain ⟨e, heG, hae⟩ := lookupList_subset hta
    exact trace_allA0 htr heG hae
  · obtain ⟨e, heG, hae⟩ := lookupList_subset hsa
    exact estoque_allA0 heG hae

/-- Witness for C5 at a one-item run whose report has one row. -/
theorem address_filter_A0_witness :
    strStartsWith
      (ReportRow.mk "I1" "D" (toNumeric (some "1")) "A0001" "VIDA").endereco
      "A0" = true :=
  address_filter_A0.2.2.2.2.2 [StatusRow.mk "I1" "D" (some "1") []]
    (TraceTable.comEndereco [TraceRowE.mk "I1" (some "A0001")]) []
    [ReportRow.mk "I1" "D" (toNumeric (some "1")) "A0001" "VIDA"]
    (by decide) (ReportRow.mk "I1" "D" (toNumeric (some "1")) "A0001" "VIDA")
    (by decide)

/-- C8: every report row's quantity label is the label function applied to
the quantity attached by the left join on (Item, Endereço) with 0 for a
missing match; the label function itself prints the integer part when the
quantity is positive and `VIDA` otherwise, so a pair with no match in the
summed stock table is always labelled `VIDA`. -/
theorem quantity_label_rule :
    (∀ q : ℚ, quantityLabel q = if 0 < q then toString q.floor else "VIDA") ∧
    ∀ (status : List StatusRow) (tr : TraceTable) (est : List EstoqueRow)
      (rep : List ReportRow), process_data status tr est = some rep →
        ∀ row ∈ rep,
          row.statusQtd = quantityLabel
            ((lookupQty
                (groupSum (estoqueCoerced est (itensOf (process_status_data status))))
                row.item row.endereco).getD 0) ∧
          (lookupQty
              (groupSum (estoqueCoerced est (itensOf (process_status_data status))))
              row.item row.endereco = none →
            row.statusQtd = "VIDA") := by
  refine ⟨fun q => rfl, ?_⟩
  intro status tr est rep h row hrow
  obtain ⟨trG, htr, rfl⟩ := process_data_some h
  obtain ⟨r, _, a, _, rfl⟩ := mem_reportRows.mp hrow
  constructor
  · rfl
  · intro h0
    simp only [mkReportRow] at h0 ⊢
    rw [h0]
    simp [quantityLabel]

/-- Witness for C8 on the one-item run: no stock match, label `VIDA`. -/
theorem quantity_label_rule_witness :
    exRow1.statusQtd = quantityLabel
        ((lookupQty
            (groupSum (estoqueCoerced [] (itensOf (process_status_data exStatus1))))
            exRow1.item exRow1.endereco).getD 0) ∧
      (lookupQty
          (groupSum (estoqueCoerced [] (itensOf (process_status_data exStatus1))))
          exRow1.item exRow1.endereco = none →
        exRow1.statusQtd = "VIDA") :=
  quantity_label_rule.2 exStatus1 exTrace1 [] [exRow1] (by decide) exRow1 (by decide)

/-- C2 fails as stated: a status table may repeat its Item value, and the
merge then duplicates the item's whole address list.  At this concrete
input the report carries the pair ("X", "A0001") twice. -/
theorem report_dup_pair_counterexample :
    (process_data
        [StatusRow.mk "X" "d" (some "1") [], StatusRow.mk "X" "d" (some "1") []]
        (TraceTable.comEndereco [TraceRowE.mk "X" (some "A0001")]) []).map
      (List.map fun r => (r.item, r.endereco)) =
      some [("X", "A0001"), ("X", "A0001")] ∧
    ¬ ([("X", "A0001"), ("X", "A0001")] : List (String × String)).Nodup :=
  ⟨by decide, by decide⟩

/-- C2 (amended): whenever the filtered status rows carry pairwise-distinct
Item values, no two rows of the final report share the same
(Item, Endereço) pair. -/
theorem report_nodup_pairs (status : List StatusRow) (tr : TraceTable)
    (est : List EstoqueRow) (rep : List ReportRow)
    (hn : ((process_status_data status).map (·.item)).Nodup)
    (h : process_data status tr est = some rep) :
    (rep.map fun row => (row.item, row.endereco)).Nodup := by
  obtain ⟨trG, htr, rfl⟩ := process_data_some h
  rw [reportRows_eq, List.map_flatMap]
  have hrew : ∀ r : StatusRec,
      ((unionSorted (lookupList trG r.item)
          (lookupList (groupItems (groupSum (estoqueCoerced est
            (itensOf (process_status_data status))))) r.item)).map
        (mkReportRow (groupSum (estoqueCoerced est
          (itensOf (process_status_data status)))) r)).map
          (fun row => (row.item, row.endereco)) =
        (unionSorted (lookupList trG r.item)
          (lookupList (groupItems (groupSum (estoqueCoerced est
            (itensOf (process_status_data status))))) r.item)).map
          fun a => (r.item, a) := by
    intro r
    rw [List.map_map]
    rfl
  simp only [hrew]
  refine List.nodup_flatMap.mpr ⟨fun r _ => ?_, ?_⟩
  · exact (nodup_unionSorted _ _).map fun a b hab => congrArg Prod.snd hab
  · have hp : (process_status_data status).Pairwise fun a b => a.item ≠ b.item :=
      List.pairwise_map.mp hn
    refine hp.imp ?_
    intro a b hne x hxa hxb
    simp only [List.mem_map] at hxa hxb
    obtain ⟨u, _, rfl⟩ := hxa
    obtain ⟨v, _, hv⟩ := hxb
    exact hne (congrArg Prod.fst hv.symm)

/-- Witness for C2 (amended) on the one-item run. -/
theorem report_nodup_pairs_witness :
    (([exRow1] : List ReportRow).map fun row => (row.item, row.endereco)).Nodup :=
  report_nodup_pairs exStatus1 exTrace1 [] [exRow1] (by decide) (by decide)

/-- C1 fails as stated: at this input the item I1 survives status
filtering (second conjunct) and is absent from both the traceability and
the stock tables, yet the report is empty — zero rows, not the one
placeholder row the claim asserts. -/
theorem empty_union_drop_counterexample :
    process_data [StatusRow.mk "I1" "D" (some "1") []]
        (TraceTable.comEndereco []) [] = some [] ∧
      (process_status_data [StatusRow.mk "I1" "D" (some "1") []]).map (·.item) =
        ["I1"] :=
  ⟨by decide, by decide⟩

/-- C1 (amended): an item whose union of A0 addresses from traceability
and stock is empty contributes no report row at all — the explode of the
empty list yields a null address which the dropna step then removes, so
the item is silently dropped from the report. -/
theorem empty_union_drop (status : List StatusRow) (tr : TraceTable)
    (est : List EstoqueRow) (trG : List (String × List String))
    (rep : List ReportRow) (item : String)
    (htr : process_rastreabilidade_data tr = some trG)
    (h : process_data status tr est = some rep)
    (hu : unionSorted (lookupList trG item)
        (lookupList (groupItems (groupSum (estoqueCoerced est
          (itensOf (process_status_data status))))) item) = []) :
    ∀ row ∈ rep, row.item ≠ item := by
  obtain ⟨trG', htr', rfl⟩ := process_data_some h
  rw [htr] at htr'
  obtain rfl : trG = trG' := Option.some_inj.mp htr'
  intro row hrow hitem
  obtain ⟨r, _, a, ha, rfl⟩ := mem_reportRows.mp hrow
  have hri : r.item = item := hitem
  rw [hri, hu] at ha
  exact (List.not_mem_nil a) ha

/-- Witness for C1 (amended): item I2 survives filtering with an empty
address union, and the only report row is I1's. -/
theorem empty_union_drop_witness :
    exRow1.item ≠ "I2" :=
  empty_union_drop
    [StatusRow.mk "I1" "D" (some "1") [], StatusRow.mk "I2" "E" (some "1") []]
    exTrace1 [] [("I1", ["A0001"])] [exRow1] "I2"
    (by decide) (by decide) (by decide) exRow1 (by decide)

/-- C10: stock rows whose item is outside the filtered status universe
never influence the report — two runs whose stock tables agree on the rows
of in-universe items produce identical results. -/
theorem stock_noninterference (status : List StatusRow) (tr : TraceTable)
    (est est' : List EstoqueRow)
    (hf : est.filter
          (fun r => (itensOf (process_status_data status)).contains r.item) =
        est'.filter
          (fun r => (itensOf (process_status_data status)).contains r.item)) :
    process_data status tr est = process_data status tr est' := by
  have hco : estoqueCoerced est (itensOf (process_status_data status)) =
      estoqueCoerced est' (itensOf (process_status_data status)) := by
    unfold estoqueCoerced
    rw [filter_mask_eq, filter_mask_eq, hf]
  unfold process_data process_estoque_data
  dsimp only
  rw [hco]

/-- Witness for C10: a stock row for an out-of-universe item versus no
stock row at all. -/
theorem stock_noninterference_witness :
    process_data exStatus1 exTrace1 [EstoqueRow.mk "Z9" (some "A0009") (some "4")] =
      process_data exStatus1 exTrace1 [] :=
  stock_noninterference exStatus1 exTrace1
    [EstoqueRow.mk "Z9" (some "A0009") (some "4")] [] (by decide)

theorem keyIs_mk (i a x y : String) (q : ℚ) :
    keyIs i a (x, y, q) = (decide (x = i) && decide (y = a)) := rfl

theorem find?_keyIs (g : (String × String) → ℚ) (ks : List (String × String))
    (i a : String) :
    ((ks.map fun k => (k.1, k.2, g k)).find? (keyIs i a)) =
      if (i, a) ∈ ks then some (i, a, g (i, a)) else none := by
  induction ks with
  | nil => simp
  | cons k ks ih =>
      by_cases hk : k = (i, a)
      · subst hk
        simp [List.find?_cons, keyIs_mk]
      · have hpred : keyIs i a (k.1, k.2, g k) = false := by
          rw [keyIs_mk]
          by_cases h1 : k.1 = i
          · by_cases h2 : k.2 = a
            · exact absurd (Prod.ext h1 h2) hk
            · simp [h2]
          · simp [h1]
        rw [List.map_cons, List.find?_cons, hpred]
        rw [ih]
        have hmem : ((i, a) ∈ k :: ks) ↔ (i, a) ∈ ks := by
          constructor
          · intro h
            rcases List.mem_cons.mp h with h | h
            · exact absurd h.symm hk
            · exact h
          · exact List.mem_cons_of_mem _
        exact if_congr hmem.symm rfl rfl

theorem lookupQty_groupSum (l : List (String × String × ℚ)) (i a : String) :
    lookupQty (groupSum l) i a =
      if (i, a) ∈ l.map (fun r => (r.1, r.2.1))
      then some (((l.filter (keyIs i a)).map (·.2.2)).sum)
      else none := by
  unfold lookupQty groupSum
  rw [find?_keyIs]
  have hmem : ((i, a) ∈
      List.insertionSort (fun a b => pairLe a b = true)
        (dedupF (l.map fun r => (r.1, r.2.1)))) ↔
      (i, a) ∈ l.map fun r => (r.1, r.2.1) := by
    rw [(List.perm_insertionSort _ _).mem_iff, mem_dedupF]
  rw [if_congr hmem rfl rfl, apply_ite (Option.map fun r : String × String × ℚ => r.2.2)]
  simp

theorem nodup_groupSum_keys (l : List (String × String × ℚ)) :
    ((groupSum l).map fun r => (r.1, r.2.1)).Nodup := by
  unfold groupSum
  rw [List.map_map]
  have hid : ((fun r : String × String × ℚ => (r.1, r.2.1)) ∘
      fun k : String × String =>
        (k.1, k.2, ((l.filter (keyIs k.1 k.2)).map (·.2.2)).sum)) = id := rfl
  rw [hid, List.map_id]
  exact ((List.perm_insertionSort _ _).nodup_iff).mpr (nodup_dedupF _)

/-- C6: the (Item, Endereço)-keyed stock aggregation is order-insensitive —
permuting the raw stock rows leaves every per-key total unchanged — and its
output has pairwise-distinct (Item, Endereço) keys. -/
theorem stock_group_sum (itens : List String) (est est' : List EstoqueRow)
    (h : est.Perm est') :
    (∀ i a, lookupQty ((process_estoque_data est itens).1) i a =
        lookupQty ((process_estoque_data est' itens).1) i a) ∧
    ((process_estoque_data est itens).1.map fun r => (r.1, r.2.1)).Nodup := by
  have hperm : (estoqueCoerced est itens).Perm (estoqueCoerced est' itens) :=
    List.Perm.filterMap _ (h.filter _)
  constructor
  · intro i a
    show lookupQty (groupSum (estoqueCoerced est itens)) i a =
      lookupQty (groupSum (estoqueCoerced est' itens)) i a
    rw [lookupQty_groupSum, lookupQty_groupSum]
    have hmem : ((i, a) ∈ (estoqueCoerced est itens).map fun r => (r.1, r.2.1)) ↔
        (i, a) ∈ (estoqueCoerced est' itens).map fun r => (r.1, r.2.1) :=
      (hperm.map _).mem_iff
    have hsum : (((estoqueCoerced est itens).filter (keyIs i a)).map
          fun r : String × String × ℚ => r.2.2).sum =
        (((estoqueCoerced est' itens).filter (keyIs i a)).map
          fun r : String × String × ℚ => r.2.2).sum :=
      List.Perm.sum_eq ((hperm.filter _).map _)
    rw [hsum]
    exact if_congr hmem rfl rfl
  · show ((groupSum (estoqueCoerced est itens)).map fun r => (r.1, r.2.1)).Nodup
    exact nodup_groupSum_keys _

/-- Witness for C6: swapping the two stock rows leaves the total for
("I1", "A0001") unchanged. -/
theorem stock_group_sum_witness :
    lookupQty ((process_estoque_data [exEstA, exEstB] ["I1"]).1) "I1" "A0001" =
      lookupQty ((process_estoque_data [exEstB, exEstA] ["I1"]).1) "I1" "A0001" :=
  (stock_group_sum ["I1"] [exEstA, exEstB] [exEstB, exEstA]
    (List.Perm.swap exEstB exEstA [])).1 "I1" "A0001"
